import Mathlib

/-!
Shallow embedding of the CV-parsing / semantic-matching repository
(`src/hybrid_matcher.py`, `src/semantic_matcher.py`, `src/db_manager.py`)
and proofs about the claims of its specification.

Modelling conventions:
* Python floats are modelled by `ℚ` (exact arithmetic; none of the claims
  depends on rounding).
* Texts are Lean `String`s; tokenisation works on their character lists.
  Character classes follow the ASCII reading of Python's `re` classes
  (`[a-z]`, and `\w` = letters, digits and underscore); all concrete inputs
  used below are ASCII.
* The sentence-transformer encoder (`SentenceTransformer.encode`) is an
  external pretrained model, out of scope per the spec; the ranking
  functions therefore take the scoring function of the query against a
  stored vector (`simf`) as an explicit parameter.  The repository's own
  `compute_similarity` (sklearn cosine similarity) is embedded separately
  as `compute_similarity` below.
* `raise ValueError` is modelled with `Except MatchError`; the two distinct
  error sites of the ranking paths get the two constructors that the spec
  names `NoEmbeddingsError` and `InvalidWeightsError`.
-/

namespace CVMatch

/-! ## Keyword engine (`HybridMatcher.extract_keywords`, hybrid_matcher.py:10-15)

The source line is `re.findall(r'\b[a-z]{3,}\b', text.lower())`.
`scanTok` is an operational model of the regex engine's scan: it walks the
lowered text position by position, and at a position emits a match exactly
when a word boundary precedes it, a maximal run of at least three lowercase
letters starts there, and a word boundary follows the run.  Positions inside
an emitted run never satisfy the leading-boundary test (both neighbours are
letters), so the position-by-position scan coincides with `findall`'s
non-overlapping scan. -/

/-- Word character in the sense of the regex metacharacter `\b` (ASCII
reading of Python's `\w`): letters, digits and the underscore. -/
def isWordChar (c : Char) : Bool :=
  c.isAlphanum || c == '_'

/-- Leading word-boundary test: the previous character (if any) is not a
word character. -/
def boundaryB : Option Char → Bool
  | none => true
  | some p => !isWordChar p

/-- Trailing word-boundary test: the next character (if any) is not a word
character. -/
def endB : List Char → Bool
  | [] => true
  | d :: _ => !isWordChar d

/-- Position-by-position scan of the lowered text for matches of
`\b[a-z]{3,}\b`; `prev` is the character before the current position. -/
def scanTok (prev : Option Char) : List Char → List (List Char)
  | [] => []
  | c :: cs =>
    (if boundaryB prev && c.isLower then
      let run := c :: cs.takeWhile Char.isLower
      if 3 ≤ run.length && endB (cs.dropWhile Char.isLower) then [run] else []
    else []) ++ scanTok (some c) cs

/-- The `set(re.findall(r'\b[a-z]{3,}\b', text.lower()))` of
`HybridMatcher.extract_keywords`. -/
def extract_keywords (text : String) : Finset (List Char) :=
  (scanTok none (text.data.map Char.toLower)).toFinset

/-! ## Keyword overlap (`HybridMatcher.keyword_matching_score`, hybrid_matcher.py:17-34) -/

/-- Jaccard overlap of the keyword sets of a CV text and a job description,
with the source's early return on an empty job keyword set and its
`union > 0` guard. -/
def keyword_matching_score (cv_text job_description : String) : ℚ :=
  let cv_keywords := extract_keywords cv_text
  let job_keywords := extract_keywords job_description
  if job_keywords = ∅ then 0
  else
    let intersection := (cv_keywords ∩ job_keywords).card
    let union := (cv_keywords ∪ job_keywords).card
    if 0 < union then (intersection : ℚ) / (union : ℚ) else 0

/-! ## Data model -/

/-- Embedding vector (`numpy` array of floats). -/
abbrev Vec := List ℚ

/-- Row of the `candidates` table, projected to the columns the ranking
paths read (`id`, `name`, `full_text`). -/
structure Candidate where
  id : ℕ
  name : String
  fullText : String
deriving DecidableEq, Repr

/-- Row of the SQLite `cv_embeddings` table (`candidate_id UNIQUE`,
`embedding_vector` as a JSON array — modelled by the vector itself, the
JSON round trip being faithful — and `model_name`). -/
structure EmbRow where
  candidateId : ℕ
  vector : Vec
  modelName : String
deriving DecidableEq, Repr

/-- Persistent embedding state: the NumPy artifact
`database/cv_embeddings.npz` (`none` when the file does not exist) and the
SQLite `cv_embeddings` table.  These are two distinct stores in the source. -/
structure Storage where
  npz : Option (List (ℕ × Vec))
  embTable : List EmbRow
deriving DecidableEq, Repr

/-- `SemanticMatcher.load_embeddings` (semantic_matcher.py:52-63): reads the
`.npz` artifact only; returns the empty mapping when the file is absent. -/
def load_embeddings (st : Storage) : List (ℕ × Vec) :=
  st.npz.getD []

/-- `CVDatabase.store_embedding` (db_manager.py:155-171): `INSERT OR
REPLACE` into the SQLite `cv_embeddings` table keyed by the unique
`candidate_id`; the conflicting row is deleted and the fresh row appended. -/
def store_embedding (st : Storage) (candidate_id : ℕ) (v : Vec) (model_name : String) :
    Storage :=
  { st with
    embTable :=
      st.embTable.filter (fun r => r.candidateId != candidate_id) ++
        [⟨candidate_id, v, model_name⟩] }

/-- `SemanticMatcher.precompute_all_embeddings` (semantic_matcher.py:65-108):
with a non-empty candidate set, embeds every `full_text` (through the
external encoder `embedF`) and replaces the `.npz` artifact wholesale; with
an empty candidate set it reports and leaves the state unchanged. -/
def precompute_all_embeddings (embedF : String → Vec) (db : List Candidate)
    (st : Storage) : Storage :=
  if db = [] then st
  else { st with npz := some (db.map (fun c => (c.id, embedF c.fullText))) }

/-- Errors raised on the ranking paths (`raise ValueError` in the source;
the spec names them `NoEmbeddingsError` and `InvalidWeightsError`). -/
inductive MatchError where
  | noEmbeddings
  | invalidWeights
deriving DecidableEq, Repr

/-- Tuple `(candidate_id, name, score)` returned by `rank_candidates`. -/
structure SemResult where
  id : ℕ
  name : String
  score : ℚ
deriving DecidableEq, Repr

/-- Tuple `(candidate_id, name, semantic_score, keyword_score,
combined_score)` returned by `hybrid_rank`. -/
structure HybResult where
  id : ℕ
  name : String
  semanticScore : ℚ
  keywordScore : ℚ
  combinedScore : ℚ
deriving DecidableEq, Repr

/-! ## Stable descending sort

`results.sort(key=..., reverse=True)` is Python's stable sort run
descending: the result is sorted by the key non-increasingly and elements
with equal keys keep their original relative order.  The stable descending
sort of a list is unique, so the insertion sort below is a faithful model
of the source's call. -/

/-- Insert `x` into a descending-sorted list, after every element whose key
is at least `key x` (so equal keys keep the earlier element first). -/
def insertDesc (key : α → ℚ) (x : α) : List α → List α
  | [] => [x]
  | y :: ys => if key y ≤ key x then x :: y :: ys else y :: insertDesc key x ys

/-- Stable sort by `key`, descending (`list.sort(key=..., reverse=True)`). -/
def sortDesc (key : α → ℚ) : List α → List α
  | [] => []
  | x :: xs => insertDesc key x (sortDesc key xs)

/-- Sortedness predicate for the ranking outputs: keys are non-increasing
along the list. -/
def SortedDesc (key : α → ℚ) (l : List α) : Prop :=
  l.Pairwise (fun a b => key b ≤ key a)

/-! ## Semantic ranker (`SemanticMatcher.rank_candidates`, semantic_matcher.py:110-149) -/

/-- The dict `{cid: name for cid, name in cursor.fetchall()}` built from
`SELECT id, name FROM candidates`; on duplicate ids the dict keeps the last
row, hence the reversed search. -/
def namesDict (db : List Candidate) (i : ℕ) : Option String :=
  (db.reverse.find? (fun c => c.id == i)).map (·.name)

/-- The results list of `rank_candidates` before sorting: iterate the
loaded embedding collection in order, keep the ids present in the
candidates dict, score each kept vector. -/
def rankUnsorted (simf : Vec → ℚ) (db : List Candidate)
    (embeddings : List (ℕ × Vec)) : List SemResult :=
  embeddings.filterMap (fun p =>
    (namesDict db p.1).map (fun n => ⟨p.1, n, simf p.2⟩))

/-- `SemanticMatcher.rank_candidates`: load the precomputed embeddings,
fail with `NoEmbeddingsError` when there are none, otherwise score the
stored vectors against the candidates dict and sort by score descending.
`simf` stands for `compute_similarity(job_embedding, ·)`, the query's
embedding being produced by the external encoder. -/
def rank_candidates (simf : Vec → ℚ) (db : List Candidate) (st : Storage) :
    Except MatchError (List SemResult) :=
  let embeddings := load_embeddings st
  if embeddings = [] then .error .noEmbeddings
  else .ok (sortDesc SemResult.score (rankUnsorted simf db embeddings))

/-! ## Hybrid ranker (`HybridMatcher.hybrid_rank`, hybrid_matcher.py:36-89) -/

/-- `SELECT full_text FROM candidates WHERE id = ?` followed by
`fetchone()`: the first matching row's text, if any. -/
def fullTextOf (db : List Candidate) (i : ℕ) : Option String :=
  (db.find? (fun c => c.id == i)).map (·.fullText)

/-- The `hybrid_results` list before sorting: walk the semantic results in
order, skip ids whose full text is gone, and attach the keyword and
combined scores. -/
def hybridUnsorted (job_description : String) (semantic_weight keyword_weight : ℚ)
    (db : List Candidate) (sems : List SemResult) : List HybResult :=
  sems.filterMap (fun r =>
    (fullTextOf db r.id).map (fun txt =>
      let k := keyword_matching_score txt job_description
      ⟨r.id, r.name, r.score, k,
        semantic_weight * r.score + keyword_weight * k⟩))

/-- `HybridMatcher.hybrid_rank`: validate the weights
(`abs(total_weight - 1.0) > 0.01` raises), run the semantic ranking,
combine with the keyword scores, and sort by combined score descending. -/
def hybrid_rank (simf : Vec → ℚ) (job_description : String)
    (semantic_weight keyword_weight : ℚ) (db : List Candidate) (st : Storage) :
    Except MatchError (List HybResult) :=
  if 1 / 100 < |semantic_weight + keyword_weight - 1| then .error .invalidWeights
  else
    match rank_candidates simf db st with
    | .error e => .error e
    | .ok sems =>
        .ok (sortDesc HybResult.combinedScore
          (hybridUnsorted job_description semantic_weight keyword_weight db sems))

/-! ## Similarity engine (`SemanticMatcher.compute_similarity`, semantic_matcher.py:38-50) -/

/-- Dot product of two vectors (componentwise, truncating to the common
length; the rankers only ever compare same-model, same-length vectors). -/
def dotQ : List ℚ → List ℚ → ℚ
  | [], _ => 0
  | _, [] => 0
  | a :: as, b :: bs => a * b + dotQ as bs

/-- Sum of squared components. -/
def sumSq (u : List ℚ) : ℚ := dotQ u u

/-- `SemanticMatcher.compute_similarity`: sklearn's
`cosine_similarity(emb1, emb2)[0][0]`, i.e. `dot(a, b) / (norm(a) * norm(b))`. -/
noncomputable def compute_similarity (e1 e2 : Vec) : ℝ :=
  (dotQ e1 e2 : ℝ) / (Real.sqrt ((sumSq e1 : ℚ) : ℝ) * Real.sqrt ((sumSq e2 : ℚ) : ℝ))

/-! ## Declarative token characterisations

Two further token definitions are compared with `extract_keywords`.
`claimedKeywords` follows the claim's words: every maximal run of three or
more alphabetic characters of the lowered text is a token, regardless of
its neighbours.  `amendedKeywords` additionally requires the run to be a
whole word-character run, i.e. not adjacent to digits or underscores —
which is what the word boundaries `\b` of the source's regex enforce. -/

/-- Splitter for maximal runs of characters satisfying `p`; `cur` holds the
reversed run in progress. -/
def runsByAux (p : Char → Bool) (cur : List Char) : List Char → List (List Char)
  | [] =>
    match cur with
    | [] => []
    | _ :: _ => [cur.reverse]
  | c :: cs =>
    if p c then runsByAux p (c :: cur) cs
    else
      match cur with
      | [] => runsByAux p [] cs
      | _ :: _ => cur.reverse :: runsByAux p [] cs

/-- Maximal runs of (lowered) alphabetic characters, ignoring what borders
them. -/
def alphaRuns (l : List Char) : List (List Char) :=
  runsByAux Char.isLower [] l

/-- Maximal runs of word characters. -/
def wordRuns (l : List Char) : List (List Char) :=
  runsByAux isWordChar [] l

/-- A run qualifies as a token when it is all lowercase letters and has
length at least three. -/
def goodRun (r : List Char) : Bool :=
  r.all Char.isLower && decide (3 ≤ r.length)

/-- Token set as the claim describes it: all maximal alphabetic runs of
length three or more of the lowered text. -/
def claimedKeywords (text : String) : Finset (List Char) :=
  ((alphaRuns (text.data.map Char.toLower)).filter (fun r => decide (3 ≤ r.length))).toFinset

/-- Token set as amended: maximal word-character runs of the lowered text
that consist entirely of at least three letters (equivalently, maximal
alphabetic runs of length three or more whose neighbours are not word
characters). -/
def amendedKeywords (text : String) : Finset (List Char) :=
  ((wordRuns (text.data.map Char.toLower)).filter goodRun).toFinset

/-! ## Properties of the stable descending sort -/

theorem insertDesc_perm (key : α → ℚ) (x : α) (l : List α) :
    List.Perm (insertDesc key x l) (x :: l) := by
  induction l with
  | nil => simp [insertDesc]
  | cons y ys ih =>
      by_cases h : key y ≤ key x
      · simp [insertDesc, h]
      · simpa [insertDesc, h] using ((ih.cons y).trans (List.Perm.swap x y ys))

theorem sortDesc_perm (key : α → ℚ) (l : List α) :
    List.Perm (sortDesc key l) l := by
  induction l with
  | nil => simp [sortDesc]
  | cons x xs ih => exact (insertDesc_perm key x (sortDesc key xs)).trans (ih.cons x)

theorem mem_sortDesc (key : α → ℚ) (l : List α) (a : α) :
    a ∈ sortDesc key l ↔ a ∈ l :=
  (sortDesc_perm key l).mem_iff

theorem insertDesc_sorted (key : α → ℚ) (x : α) (l : List α)
    (h : SortedDesc key l) : SortedDesc key (insertDesc key x l) := by
  induction l with
  | nil => simp [insertDesc, SortedDesc]
  | cons y ys ih =>
      rcases List.pairwise_cons.mp h with ⟨hy, hys⟩
      unfold SortedDesc insertDesc
      by_cases hxy : key y ≤ key x
      · rw [if_pos hxy]
        refine List.pairwise_cons.mpr ⟨?_, h⟩
        intro b hb
        rcases List.mem_cons.mp hb with rfl | hb
        · exact hxy
        · exact le_trans (hy b hb) hxy
      · rw [if_neg hxy]
        refine List.pairwise_cons.mpr ⟨?_, ih hys⟩
        intro b hb
        rcases List.mem_cons.mp ((insertDesc_perm key x ys).mem_iff.mp hb) with rfl | hb
        · exact le_of_not_le hxy
        · exact hy b hb

theorem sortDesc_sorted (key : α → ℚ) (l : List α) :
    SortedDesc key (sortDesc key l) := by
  induction l with
  | nil => simp [sortDesc, SortedDesc]
  | cons x xs ih => exact insertDesc_sorted key x (sortDesc key xs) ih

theorem insertDesc_filter_key (key : α → ℚ) (x : α) (l : List α) (c : ℚ) :
    (insertDesc key x l).filter (fun a => decide (key a = c)) =
      if key x = c then x :: l.filter (fun a => decide (key a = c))
      else l.filter (fun a => decide (key a = c)) := by
  induction l with
  | nil => by_cases hx : key x = c <;> simp [insertDesc, hx]
  | cons y ys ih =>
      unfold insertDesc
      by_cases hxy : key y ≤ key x
      · rw [if_pos hxy]
        by_cases hx : key x = c <;> by_cases hy : key y = c <;>
          simp [List.filter_cons, hx, hy]
      · rw [if_neg hxy]
        have hyx : key x < key y := lt_of_not_le hxy
        by_cases hy : key y = c
        · have hx : ¬ key x = c := by
            intro hx; exact absurd (hx.trans hy.symm) (ne_of_lt hyx)
          simp [List.filter_cons, hy, hx, ih]
        · by_cases hx : key x = c <;>
            simp [List.filter_cons, hy, hx, ih]

theorem sortDesc_filter_key (key : α → ℚ) (l : List α) (c : ℚ) :
    (sortDesc key l).filter (fun a => decide (key a = c)) =
      l.filter (fun a => decide (key a = c)) := by
  induction l with
  | nil => simp [sortDesc]
  | cons x xs ih =>
      by_cases hx : key x = c <;>
        simp [sortDesc, insertDesc_filter_key, hx, List.filter_cons, ih]

/-! ## Equivalence of the regex scan with the run-splitting description -/

theorem isWordChar_of_isLower {c : Char} (h : c.isLower = true) :
    isWordChar c = true := by
  simp [isWordChar, Char.isAlphanum, Char.isAlpha, h]

theorem runsByAux_cons (p : Char → Bool) (acc : List Char) (d : Char)
    (ds : List Char) :
    runsByAux p acc (d :: ds) =
      if p d = true then runsByAux p (d :: acc) ds
      else
        match acc with
        | [] => runsByAux p [] ds
        | _ :: _ => acc.reverse :: runsByAux p [] ds := rfl

theorem runsByAux_acc (p : Char → Bool) (cs : List Char) :
    ∀ acc : List Char, acc ≠ [] →
      runsByAux p acc cs =
        (acc.reverse ++ cs.takeWhile p) :: runsByAux p [] (cs.dropWhile p) := by
  induction cs with
  | nil =>
      intro acc h
      obtain ⟨a, as, rfl⟩ := List.exists_cons_of_ne_nil h
      simp [runsByAux]
  | cons d ds ih =>
      intro acc h
      obtain ⟨a, as, rfl⟩ := List.exists_cons_of_ne_nil h
      rw [runsByAux_cons]
      by_cases hd : p d = true
      · rw [if_pos hd, ih (d :: a :: as) (by simp)]
        simp [List.takeWhile_cons, List.dropWhile_cons, hd]
      · rw [if_neg hd]
        have h2 : runsByAux p [] (d :: ds) = runsByAux p [] ds := by
          rw [runsByAux_cons, if_neg hd]
        simp [List.takeWhile_cons, List.dropWhile_cons, hd, h2]

theorem wordRuns_cons (c : Char) (cs : List Char) :
    wordRuns (c :: cs) =
      if isWordChar c = true then
        (c :: cs.takeWhile isWordChar) :: wordRuns (cs.dropWhile isWordChar)
      else wordRuns cs := by
  unfold wordRuns
  rw [runsByAux_cons]
  by_cases hw : isWordChar c = true
  · rw [if_pos hw, if_pos hw, runsByAux_acc isWordChar cs [c] (by simp)]
    simp
  · rw [if_neg hw, if_neg hw]

theorem takeWhile_lower_eq_word {cs : List Char}
    (h : ∀ x ∈ cs.takeWhile isWordChar, x.isLower = true) :
    cs.takeWhile Char.isLower = cs.takeWhile isWordChar ∧
      cs.dropWhile Char.isLower = cs.dropWhile isWordChar := by
  induction cs with
  | nil => simp
  | cons d ds ih =>
      by_cases hw : isWordChar d = true
      · have hd : d.isLower = true := h d (by simp [List.takeWhile_cons, hw])
        have hrest : ∀ x ∈ ds.takeWhile isWordChar, x.isLower = true := by
          intro x hx
          exact h x (by simp [List.takeWhile_cons, hw, hx])
        obtain ⟨h1, h2⟩ := ih hrest
        simp [List.takeWhile_cons, List.dropWhile_cons, hw, hd, h1, h2]
      · have hd : d.isLower = false := by
          cases hdl : d.isLower
          · rfl
          · exact absurd (isWordChar_of_isLower hdl) hw
        simp [List.takeWhile_cons, List.dropWhile_cons, hw, hd]

theorem endB_dropWhile_lower_false {cs : List Char}
    (h : ¬ ∀ x ∈ cs.takeWhile isWordChar, x.isLower = true) :
    endB (cs.dropWhile Char.isLower) = false := by
  induction cs with
  | nil => exact absurd (by simp) h
  | cons d ds ih =>
      by_cases hw : isWordChar d = true
      · by_cases hd : d.isLower = true
        · have hds : ¬ ∀ x ∈ ds.takeWhile isWordChar, x.isLower = true := by
            intro hall
            refine h ?_
            intro x hx
            simp only [List.takeWhile_cons, hw, if_true, List.mem_cons] at hx
            rcases hx with rfl | hx
            · exact hd
            · exact hall x hx
          simp [List.dropWhile_cons, hd, ih hds]
        · have hd' : d.isLower = false := by
            cases hdl : d.isLower
            · rfl
            · exact absurd hdl hd
          simp [List.dropWhile_cons, hd', endB, hw]
      · refine absurd ?_ h
        intro x hx
        simp [List.takeWhile_cons, hw] at hx

theorem endB_dropWhile_word (l : List Char) :
    endB (l.dropWhile isWordChar) = true := by
  induction l with
  | nil => rfl
  | cons d ds ih =>
      by_cases hw : isWordChar d = true
      · simp [List.dropWhile_cons, hw, ih]
      · simp [List.dropWhile_cons, hw, endB]

theorem scanTok_cons (prev : Option Char) (c : Char) (cs : List Char) :
    scanTok prev (c :: cs) =
      (if boundaryB prev && c.isLower then
        if 3 ≤ (c :: cs.takeWhile Char.isLower).length &&
            endB (cs.dropWhile Char.isLower) then
          [c :: cs.takeWhile Char.isLower]
        else []
      else []) ++ scanTok (some c) cs := rfl

theorem scanTok_eq (l : List Char) : ∀ prev : Option Char,
    scanTok prev l =
      (if boundaryB prev = true then wordRuns l
       else wordRuns (l.dropWhile isWordChar)).filter goodRun := by
  induction l with
  | nil =>
      intro prev
      by_cases hb : boundaryB prev = true <;>
        simp [scanTok, wordRuns, runsByAux, hb]
  | cons c cs ih =>
      intro prev
      by_cases hw : isWordChar c = true
      · have hbc : boundaryB (some c) = false := by simp [boundaryB, hw]
        have ihc := ih (some c)
        rw [hbc] at ihc
        simp only [if_neg (by simp : ¬ (false = true))] at ihc
        by_cases hb : boundaryB prev = true
        · -- a word character at a boundary position: the head word run decides
          rw [scanTok_cons, ihc, if_pos hb, wordRuns_cons, if_pos hw,
            List.filter_cons]
          by_cases hc : c.isLower = true
          · rw [hb, hc, Bool.and_self, if_pos rfl]
            by_cases hall : ∀ x ∈ cs.takeWhile isWordChar, x.isLower = true
            · obtain ⟨hteq, hdeq⟩ := takeWhile_lower_eq_word hall
              have hendB : endB (cs.dropWhile Char.isLower) = true := by
                rw [hdeq]; exact endB_dropWhile_word cs
              have hgood : goodRun (c :: cs.takeWhile isWordChar) =
                  decide (3 ≤ (c :: cs.takeWhile isWordChar).length) := by
                simp only [goodRun, List.all_cons, hc, Bool.true_and]
                rw [show (cs.takeWhile isWordChar).all Char.isLower = true from
                  List.all_eq_true.mpr hall, Bool.true_and]
              rw [hteq, hdeq] at *
              rw [hendB, Bool.and_true, hgood]
              by_cases hlen : 2 ≤ (cs.takeWhile isWordChar).length <;>
                simp [hlen]
            · have hendB := endB_dropWhile_lower_false hall
              have hgood : goodRun (c :: cs.takeWhile isWordChar) = false := by
                push_neg at hall
                obtain ⟨x, hmem, hxl⟩ := hall
                refine Bool.eq_false_iff.mpr ?_
                simp only [goodRun, Bool.and_eq_true, List.all_eq_true, ne_eq,
                  not_and, not_forall]
                intro hA
                exact absurd (hA x (List.mem_cons_of_mem c hmem)) hxl
              rw [hendB, Bool.and_false, if_neg (by simp), hgood,
                if_neg (by simp)]
              simp
          · have hc' : c.isLower = false := Bool.eq_false_iff.mpr hc
            have hgood : goodRun (c :: cs.takeWhile isWordChar) = false := by
              simp [goodRun, hc']
            rw [hc', Bool.and_false, if_neg (by simp), hgood, if_neg (by simp)]
            simp
        · -- a word character with no boundary before it: skip the head run
          have hb' : boundaryB prev = false := Bool.eq_false_iff.mpr hb
          rw [scanTok_cons, ihc, hb', List.dropWhile_cons_of_pos hw]
          simp
      · -- a non-word character: it is never part of a token
        have hc : c.isLower = false := by
          cases hcl : c.isLower
          · rfl
          · exact absurd (isWordChar_of_isLower hcl) hw
        have hbc : boundaryB (some c) = true := by simp [boundaryB, hw]
        have ihc := ih (some c)
        rw [hbc] at ihc
        simp only [if_pos rfl] at ihc
        have hw' : isWordChar c = false := Bool.eq_false_iff.mpr hw
        rw [scanTok_cons, ihc, hc, Bool.and_false, if_neg (by simp),
          List.dropWhile_cons_of_neg (by simpa using hw), wordRuns_cons,
          if_neg hw]
        simp

/-- Claim C4 amended: `extract_keywords` returns exactly the set of
lower-cased maximal runs of three or more alphabetic characters that are
whole word-character runs — i.e. runs not adjacent to digits, underscores
or further letters — deduplicated into a set, with no stopword removal.
(The unamended claim, refuted by `claim_C4_tokenize_counterexample`, also
admitted runs adjacent to digits or underscores.) -/
theorem claim_C4_amended_tokenize (text : String) :
    extract_keywords text = amendedKeywords text := by
  unfold extract_keywords amendedKeywords
  rw [scanTok_eq]
  simp [boundaryB]

/-- Claim C4 counterexample: on the input `"abc123"` the claim's token set
(maximal alphabetic runs of length at least three, regardless of
neighbours) is `{"abc"}`, but the source regex `\b[a-z]{3,}\b` matches
nothing because the digit `1` is a word character and suppresses the
trailing word boundary; `extract_keywords "abc123"` is empty. -/
theorem claim_C4_tokenize_counterexample :
    extract_keywords "abc123" = ∅ ∧
    claimedKeywords "abc123" = {['a', 'b', 'c']} ∧
    extract_keywords "abc123" ≠ claimedKeywords "abc123" :=
  ⟨by decide, by decide, by decide⟩

/-! ## Properties of the keyword overlap score -/

theorem keyword_matching_score_eq_jaccard (A B : String) :
    keyword_matching_score A B =
      ((extract_keywords A ∩ extract_keywords B).card : ℚ) /
        ((extract_keywords A ∪ extract_keywords B).card : ℚ) := by
  unfold keyword_matching_score
  by_cases hB : extract_keywords B = ∅
  · rw [if_pos hB, hB]
    simp
  · rw [if_neg hB]
    have hu : 0 < (extract_keywords A ∪ extract_keywords B).card := by
      refine Finset.card_pos.mpr ?_
      refine Finset.Nonempty.mono Finset.subset_union_right ?_
      exact Finset.nonempty_iff_ne_empty.mpr hB
    rw [if_pos hu]

theorem keyword_matching_score_nonneg (A B : String) :
    0 ≤ keyword_matching_score A B := by
  rw [keyword_matching_score_eq_jaccard]
  positivity

theorem keyword_matching_score_le_one (A B : String) :
    keyword_matching_score A B ≤ 1 := by
  rw [keyword_matching_score_eq_jaccard]
  by_cases hu : ((extract_keywords A ∪ extract_keywords B).card : ℚ) = 0
  · rw [hu, div_zero]
    norm_num
  · have hpos : 0 < ((extract_keywords A ∪ extract_keywords B).card : ℚ) := by
      have : 0 ≤ ((extract_keywords A ∪ extract_keywords B).card : ℚ) := by
        positivity
      exact lt_of_le_of_ne this (Ne.symm hu)
    rw [div_le_one hpos]
    exact_mod_cast Finset.card_le_card
      (Finset.inter_subset_union (s := extract_keywords A) (t := extract_keywords B))

theorem keyword_matching_score_comm (A B : String) :
    keyword_matching_score A B = keyword_matching_score B A := by
  rw [keyword_matching_score_eq_jaccard, keyword_matching_score_eq_jaccard,
    Finset.inter_comm, Finset.union_comm]

theorem keyword_matching_score_self (A : String)
    (h : extract_keywords A ≠ ∅) : keyword_matching_score A A = 1 := by
  rw [keyword_matching_score_eq_jaccard, Finset.inter_self, Finset.union_self]
  have hc : ((extract_keywords A).card : ℚ) ≠ 0 := by
    exact_mod_cast Finset.card_ne_zero_of_mem
      ((Finset.nonempty_iff_ne_empty.mpr h).choose_spec)
  exact div_self hc

/-! ## Properties of the cosine similarity -/

theorem sumSq_nonneg (u : List ℚ) : 0 ≤ sumSq u := by
  induction u with
  | nil => simp [sumSq, dotQ]
  | cons a as ih =>
      have : sumSq (a :: as) = a * a + sumSq as := rfl
      rw [this]
      exact add_nonneg (mul_self_nonneg a) ih

theorem dotQ_sq_le (u : List ℚ) : ∀ v : List ℚ,
    (dotQ u v) ^ 2 ≤ sumSq u * sumSq v := by
  induction u with
  | nil =>
      intro v
      simp [dotQ, sumSq]
  | cons a as ih =>
      intro v
      cases v with
      | nil => simp [dotQ, sumSq]
      | cons b bs =>
          have hd : dotQ (a :: as) (b :: bs) = a * b + dotQ as bs := rfl
          have hsu : sumSq (a :: as) = a * a + sumSq as := rfl
          have hsv : sumSq (b :: bs) = b * b + sumSq bs := rfl
          rw [hd, hsu, hsv]
          have hih := ih bs
          have hs := sumSq_nonneg as
          have ht := sumSq_nonneg bs
          rcases eq_or_lt_of_le ht with ht0 | htpos
          · have hsq : dotQ as bs ^ 2 = 0 := by
              refine le_antisymm ?_ (sq_nonneg _)
              calc dotQ as bs ^ 2 ≤ sumSq as * sumSq bs := hih
                _ = 0 := by rw [← ht0, mul_zero]
            have hd0 : dotQ as bs = 0 :=
              (pow_eq_zero_iff (two_ne_zero)).mp hsq
            rw [hd0, ← ht0]
            nlinarith [mul_nonneg hs (mul_self_nonneg b)]
          · have h1 : 0 ≤ sumSq as * sumSq bs - dotQ as bs ^ 2 := by linarith
            have h2 : (0 : ℚ) ≤ b * b + sumSq bs := by
              nlinarith [mul_self_nonneg b]
            nlinarith [sq_nonneg (a * sumSq bs - b * dotQ as bs),
              mul_nonneg h2 h1, htpos]

theorem abs_dotQ_le (u v : List ℚ) :
    |((dotQ u v : ℚ) : ℝ)| ≤
      Real.sqrt ((sumSq u : ℚ) : ℝ) * Real.sqrt ((sumSq v : ℚ) : ℝ) := by
  have h : (((dotQ u v : ℚ) : ℝ)) ^ 2 ≤
      ((sumSq u : ℚ) : ℝ) * ((sumSq v : ℚ) : ℝ) := by
    exact_mod_cast dotQ_sq_le u v
  have hu : (0 : ℝ) ≤ ((sumSq u : ℚ) : ℝ) := by exact_mod_cast sumSq_nonneg u
  calc |((dotQ u v : ℚ) : ℝ)|
      = Real.sqrt ((((dotQ u v : ℚ) : ℝ)) ^ 2) := (Real.sqrt_sq_eq_abs _).symm
    _ ≤ Real.sqrt (((sumSq u : ℚ) : ℝ) * ((sumSq v : ℚ) : ℝ)) :=
        Real.sqrt_le_sqrt h
    _ = Real.sqrt ((sumSq u : ℚ) : ℝ) * Real.sqrt ((sumSq v : ℚ) : ℝ) :=
        Real.sqrt_mul hu _

theorem abs_compute_similarity_le_one (e1 e2 : Vec) :
    |compute_similarity e1 e2| ≤ 1 := by
  unfold compute_similarity
  set p := Real.sqrt ((sumSq e1 : ℚ) : ℝ) with hp
  set q := Real.sqrt ((sumSq e2 : ℚ) : ℝ) with hq
  have hpq : 0 ≤ p * q := mul_nonneg (Real.sqrt_nonneg _) (Real.sqrt_nonneg _)
  by_cases h0 : p * q = 0
  · rw [h0, div_zero]
    norm_num
  · have hpos : 0 < p * q := lt_of_le_of_ne hpq (Ne.symm h0)
    rw [abs_div, abs_of_pos hpos, div_le_one hpos]
    exact abs_dotQ_le e1 e2

theorem compute_similarity_bounds (e1 e2 : Vec) :
    -1 ≤ compute_similarity e1 e2 ∧ compute_similarity e1 e2 ≤ 1 := by
  have h := abs_compute_similarity_le_one e1 e2
  exact ⟨(abs_le.mp h).1, (abs_le.mp h).2⟩

/-! ## Unfolding lemmas for the two rankers -/

theorem rank_candidates_empty (simf : Vec → ℚ) (db : List Candidate) (st : Storage)
    (h : load_embeddings st = []) :
    rank_candidates simf db st = .error .noEmbeddings := by
  simp [rank_candidates, h]

theorem rank_candidates_ok (simf : Vec → ℚ) (db : List Candidate) (st : Storage)
    (h : load_embeddings st ≠ []) :
    rank_candidates simf db st =
      .ok (sortDesc SemResult.score (rankUnsorted simf db (load_embeddings st))) := by
  simp [rank_candidates, h]

theorem rank_candidates_ok_inv {simf : Vec → ℚ} {db : List Candidate} {st : Storage}
    {out : List SemResult} (h : rank_candidates simf db st = .ok out) :
    load_embeddings st ≠ [] ∧
      out = sortDesc SemResult.score (rankUnsorted simf db (load_embeddings st)) := by
  by_cases he : load_embeddings st = []
  · rw [rank_candidates_empty simf db st he] at h
    exact absurd h (by simp)
  · rw [rank_candidates_ok simf db st he] at h
    exact ⟨he, (Except.ok.injEq _ _ ▸ h.symm : _)⟩

theorem hybrid_rank_invalid (simf : Vec → ℚ) (q : String) (sw kw : ℚ)
    (db : List Candidate) (st : Storage) (h : 1 / 100 < |sw + kw - 1|) :
    hybrid_rank simf q sw kw db st = .error .invalidWeights := by
  unfold hybrid_rank
  rw [if_pos h]

theorem hybrid_rank_valid_ok (simf : Vec → ℚ) (q : String) (sw kw : ℚ)
    (db : List Candidate) (st : Storage) (sems : List SemResult)
    (hv : ¬ 1 / 100 < |sw + kw - 1|)
    (hr : rank_candidates simf db st = .ok sems) :
    hybrid_rank simf q sw kw db st =
      .ok (sortDesc HybResult.combinedScore (hybridUnsorted q sw kw db sems)) := by
  unfold hybrid_rank
  rw [if_neg hv, hr]

theorem hybrid_rank_valid_error (simf : Vec → ℚ) (q : String) (sw kw : ℚ)
    (db : List Candidate) (st : Storage) (e : MatchError)
    (hv : ¬ 1 / 100 < |sw + kw - 1|)
    (hr : rank_candidates simf db st = .error e) :
    hybrid_rank simf q sw kw db st = .error e := by
  unfold hybrid_rank
  rw [if_neg hv, hr]

theorem hybrid_rank_ok_inv {simf : Vec → ℚ} {q : String} {sw kw : ℚ}
    {db : List Candidate} {st : Storage} {out : List HybResult}
    (h : hybrid_rank simf q sw kw db st = .ok out) :
    ¬ 1 / 100 < |sw + kw - 1| ∧
      ∃ sems, rank_candidates simf db st = .ok sems ∧
        out = sortDesc HybResult.combinedScore (hybridUnsorted q sw kw db sems) := by
  by_cases hv : 1 / 100 < |sw + kw - 1|
  · rw [hybrid_rank_invalid simf q sw kw db st hv] at h
    exact absurd h (by simp)
  · refine ⟨hv, ?_⟩
    cases hr : rank_candidates simf db st with
    | error e =>
        rw [hybrid_rank_valid_error simf q sw kw db st e hv hr] at h
        exact absurd h (by simp)
    | ok sems =>
        rw [hybrid_rank_valid_ok simf q sw kw db st sems hv hr] at h
        exact ⟨sems, rfl, ((Except.ok.injEq _ _ ▸ h.symm : _))⟩

/-! ## Membership characterisations of the unsorted result lists -/

theorem mem_rankUnsorted {simf : Vec → ℚ} {db : List Candidate}
    {embs : List (ℕ × Vec)} {r : SemResult} (h : r ∈ rankUnsorted simf db embs) :
    ∃ p ∈ embs, ∃ n, namesDict db p.1 = some n ∧ r = ⟨p.1, n, simf p.2⟩ := by
  obtain ⟨p, hp, hf⟩ := List.mem_filterMap.mp h
  obtain ⟨n, hn, heq⟩ := Option.map_eq_some'.mp hf
  exact ⟨p, hp, n, hn, heq.symm⟩

theorem mem_hybridUnsorted {q : String} {sw kw : ℚ} {db : List Candidate}
    {sems : List SemResult} {t : HybResult}
    (h : t ∈ hybridUnsorted q sw kw db sems) :
    ∃ r ∈ sems, ∃ txt, fullTextOf db r.id = some txt ∧
      t = ⟨r.id, r.name, r.score, keyword_matching_score txt q,
            sw * r.score + kw * keyword_matching_score txt q⟩ := by
  obtain ⟨r, hr, hf⟩ := List.mem_filterMap.mp h
  obtain ⟨txt, htxt, heq⟩ := Option.map_eq_some'.mp hf
  exact ⟨r, hr, txt, htxt, heq.symm⟩

theorem rankUnsorted_map_id (simf : Vec → ℚ) (db : List Candidate)
    (embs : List (ℕ × Vec)) :
    (rankUnsorted simf db embs).map SemResult.id =
      (embs.filter (fun p => (namesDict db p.1).isSome)).map Prod.fst := by
  induction embs with
  | nil => simp [rankUnsorted]
  | cons p ps ih =>
      cases hn : namesDict db p.1 with
      | none =>
          simp only [rankUnsorted, List.filterMap_cons, List.filter_cons, hn,
            Option.map_none', Option.isSome_none, Bool.false_eq_true, if_false]
          exact ih
      | some n =>
          simpa [rankUnsorted, List.filterMap_cons, List.filter_cons, hn]
            using ih

/-! ## Storage helpers -/

theorem rank_candidates_error_inv {simf : Vec → ℚ} {db : List Candidate}
    {st : Storage} {e : MatchError}
    (h : rank_candidates simf db st = .error e) : e = .noEmbeddings := by
  by_cases hl : load_embeddings st = []
  · rw [rank_candidates_empty simf db st hl] at h
    exact (Except.error.inj h).symm
  · rw [rank_candidates_ok simf db st hl] at h
    exact absurd h (by simp)

theorem find?_upsert (l : List EmbRow) (cid : ℕ) (v : Vec) (m : String) :
    (l.filter (fun r => r.candidateId != cid) ++ [(⟨cid, v, m⟩ : EmbRow)]).find?
      (fun r => r.candidateId == cid) = some ⟨cid, v, m⟩ := by
  induction l with
  | nil => simp
  | cons r rs ih =>
      by_cases hr : r.candidateId = cid
      · simp [List.filter_cons, hr, ih]
      · simp [List.filter_cons, List.find?_cons, hr, ih]

/-! ## Claim theorems -/

/-- Claim C2: weight validation is fail-fast.  Whenever
`|semantic_weight + keyword_weight - 1| > 1/100`, `hybrid_rank` returns
`InvalidWeightsError` for every database and every embedding store — in
particular before the semantic ranking could raise its own error — and
whenever the deviation is within the tolerance, `InvalidWeightsError` is
never returned. -/
theorem claim_C2_weight_validation :
    ∀ (simf : Vec → ℚ) (q : String) (sw kw : ℚ) (db : List Candidate) (st : Storage),
      (1 / 100 < |sw + kw - 1| →
        hybrid_rank simf q sw kw db st = .error .invalidWeights) ∧
      (|sw + kw - 1| ≤ 1 / 100 →
        hybrid_rank simf q sw kw db st ≠ .error .invalidWeights) := by
  intro simf q sw kw db st
  refine ⟨fun h => hybrid_rank_invalid simf q sw kw db st h, fun h => ?_⟩
  have hv : ¬ 1 / 100 < |sw + kw - 1| := not_lt.mpr h
  cases hr : rank_candidates simf db st with
  | error e =>
      rw [hybrid_rank_valid_error simf q sw kw db st e hv hr,
        rank_candidates_error_inv hr]
      simp
  | ok sems =>
      rw [hybrid_rank_valid_ok simf q sw kw db st sems hv hr]
      simp

/-- Witness for C2: weights `0.7/0.5` are rejected with
`InvalidWeightsError` even on an empty store, and weights `0.7/0.3` never
produce that error. -/
theorem claim_C2_weight_validation_witness :
    hybrid_rank (fun _ => 0) "q" (7 / 10) (5 / 10) [] ⟨none, []⟩ =
      .error .invalidWeights ∧
    hybrid_rank (fun _ => 0) "q" (7 / 10) (3 / 10) [] ⟨none, []⟩ ≠
      .error .invalidWeights :=
  ⟨(claim_C2_weight_validation (fun _ => 0) "q" (7 / 10) (5 / 10) [] ⟨none, []⟩).1
      (by rw [show (7 : ℚ) / 10 + 5 / 10 - 1 = 1 / 5 by norm_num,
        abs_of_pos (by norm_num : (0 : ℚ) < 1 / 5)]; norm_num),
   (claim_C2_weight_validation (fun _ => 0) "q" (7 / 10) (3 / 10) [] ⟨none, []⟩).2
      (by rw [show (7 : ℚ) / 10 + 3 / 10 - 1 = 0 by norm_num]; norm_num)⟩

/-- Claim C3: empty-store behaviour.  For every query (`simf` abstracts the
embedded query) and database, when `load_embeddings` returns the empty
mapping, `rank_candidates` fails with `NoEmbeddingsError` instead of
returning an empty ranking. -/
theorem claim_C3_empty_store :
    ∀ (simf : Vec → ℚ) (db : List Candidate) (st : Storage),
      load_embeddings st = [] →
      rank_candidates simf db st = .error .noEmbeddings :=
  fun simf db st h => rank_candidates_empty simf db st h

/-- Witness for C3: with no `.npz` artifact on disk the ranking call
errors out. -/
theorem claim_C3_empty_store_witness :
    rank_candidates (fun _ => 0) [] ⟨none, []⟩ = .error .noEmbeddings :=
  claim_C3_empty_store (fun _ => 0) [] ⟨none, []⟩ rfl

/-- Claim C5: the keyword overlap score is the Jaccard similarity of the
two keyword sets, lies in `[0,1]`, equals `1` on identical texts with a
non-empty token set, and is `0` (not an error) when both texts produce no
tokens. -/
theorem claim_C5_jaccard :
    ∀ A B : String,
      keyword_matching_score A B =
        ((extract_keywords A ∩ extract_keywords B).card : ℚ) /
          ((extract_keywords A ∪ extract_keywords B).card : ℚ) ∧
      0 ≤ keyword_matching_score A B ∧
      keyword_matching_score A B ≤ 1 ∧
      (extract_keywords A ≠ ∅ → keyword_matching_score A A = 1) ∧
      (extract_keywords A = ∅ → extract_keywords B = ∅ →
        keyword_matching_score A B = 0) := by
  intro A B
  refine ⟨keyword_matching_score_eq_jaccard A B,
    keyword_matching_score_nonneg A B,
    keyword_matching_score_le_one A B,
    fun h => keyword_matching_score_self A h,
    fun hA hB => ?_⟩
  rw [keyword_matching_score_eq_jaccard, hA, hB]
  simp

/-- Witness for C5: a self-comparison with tokens scores `1`, and the empty
string against the empty string scores `0`. -/
theorem claim_C5_jaccard_witness :
    keyword_matching_score "aaa" "aaa" = 1 ∧
    keyword_matching_score "" "" = 0 :=
  ⟨(claim_C5_jaccard "aaa" "aaa").2.2.2.1 (by decide),
   (claim_C5_jaccard "" "").2.2.2.2 (by decide) (by decide)⟩

/-- Claim C9: stale-entry skip.  With a non-empty embedding store the
ranking succeeds; the output is, up to the final sort, exactly the scored
list of those stored `(id, vector)` pairs whose id is present in the
candidate metadata — entries absent from the metadata are dropped without
an error. -/
theorem claim_C9_stale_skip :
    ∀ (simf : Vec → ℚ) (db : List Candidate) (st : Storage),
      load_embeddings st ≠ [] →
      ∃ out, rank_candidates simf db st = .ok out ∧
        List.Perm out (rankUnsorted simf db (load_embeddings st)) ∧
        (rankUnsorted simf db (load_embeddings st)).map SemResult.id =
          ((load_embeddings st).filter
            (fun p => (namesDict db p.1).isSome)).map Prod.fst := by
  intro simf db st h
  exact ⟨sortDesc SemResult.score (rankUnsorted simf db (load_embeddings st)),
    rank_candidates_ok simf db st h,
    sortDesc_perm SemResult.score (rankUnsorted simf db (load_embeddings st)),
    rankUnsorted_map_id simf db (load_embeddings st)⟩

/-- Witness for C9: candidate `9` is present in the embedding artifact but
missing from the candidate store; ranking still succeeds and only scores
candidate `1`. -/
theorem claim_C9_stale_skip_witness :
    ∃ out, rank_candidates (fun _ => 1) [⟨1, "A", "t"⟩]
        ⟨some [(1, [1]), (9, [2])], []⟩ = .ok out ∧
      List.Perm out (rankUnsorted (fun _ => 1) [⟨1, "A", "t"⟩]
        (load_embeddings ⟨some [(1, [1]), (9, [2])], []⟩)) ∧
      (rankUnsorted (fun _ => 1) [⟨1, "A", "t"⟩]
          (load_embeddings ⟨some [(1, [1]), (9, [2])], []⟩)).map SemResult.id =
        ((load_embeddings ⟨some [(1, [1]), (9, [2])], []⟩).filter
          (fun p => (namesDict [⟨1, "A", "t"⟩] p.1).isSome)).map Prod.fst :=
  claim_C9_stale_skip (fun _ => 1) [⟨1, "A", "t"⟩]
    ⟨some [(1, [1]), (9, [2])], []⟩ (by simp [load_embeddings])

/-- Claim C10: the keyword overlap score is commutative, including the
edge cases in which one of the two token sets is empty. -/
theorem claim_C10_overlap_comm :
    ∀ A B : String,
      keyword_matching_score A B = keyword_matching_score B A :=
  keyword_matching_score_comm

/-- Claim C1 counterexample: upserting candidate 1's vector through
`store_embedding` on a fresh state leaves `load_embeddings` empty.  The
upsert path writes the SQLite `cv_embeddings` table while `load_embeddings`
reads the `.npz` artifact only, so a subsequent `load_embeddings` does not
contain the upserted key, contrary to the claim. -/
theorem claim_C1_upsert_load_counterexample :
    load_embeddings (store_embedding ⟨none, []⟩ 1 [1] "all-MiniLM-L6-v2") = [] ∧
    (1, [(1 : ℚ)]) ∉
      load_embeddings (store_embedding ⟨none, []⟩ 1 [1] "all-MiniLM-L6-v2") := by
  refine ⟨rfl, ?_⟩
  simp [load_embeddings, store_embedding]

/-- Claim C1 amended: the two ingestion paths do not share one
representation.  `store_embedding` leaves the collection read by
`load_embeddings` unchanged while making the vector retrievable from the
SQLite `cv_embeddings` table; only `precompute_all_embeddings` (on a
non-empty candidate set) writes the artifact that `load_embeddings`
returns. -/
theorem claim_C1_amended_split_persistence :
    ∀ (st : Storage) (cid : ℕ) (v : Vec) (m : String),
      load_embeddings (store_embedding st cid v m) = load_embeddings st ∧
      (store_embedding st cid v m).embTable.find?
          (fun r => r.candidateId == cid) = some ⟨cid, v, m⟩ ∧
      (∀ (embedF : String → Vec) (db : List Candidate), db ≠ [] →
        load_embeddings (precompute_all_embeddings embedF db st) =
          db.map (fun c => (c.id, embedF c.fullText))) := by
  intro st cid v m
  refine ⟨rfl, find?_upsert st.embTable cid v m, ?_⟩
  intro embedF db h
  simp [precompute_all_embeddings, h, load_embeddings]

/-- Witness for the amended C1 on a concrete state: the upsert is invisible
to `load_embeddings`, lands in the SQLite table, and a precompute run over
one candidate is what populates the artifact. -/
theorem claim_C1_amended_split_persistence_witness :
    load_embeddings (store_embedding ⟨none, []⟩ 1 [1] "m") =
      load_embeddings ⟨none, []⟩ ∧
    (store_embedding ⟨none, []⟩ 1 [1] "m").embTable.find?
        (fun r => r.candidateId == 1) = some ⟨1, [1], "m"⟩ ∧
    load_embeddings (precompute_all_embeddings (fun _ => [2]) [⟨1, "A", "t"⟩]
      ⟨none, []⟩) = [(1, [2])] := by
  obtain ⟨h1, h2, h3⟩ := claim_C1_amended_split_persistence ⟨none, []⟩ 1 [1] "m"
  exact ⟨h1, h2, by simpa using h3 (fun _ => [2]) [⟨1, "A", "t"⟩] (by simp)⟩

/-- Claim C7: score-combination arithmetic.  Every tuple of a successful
`hybrid_rank` output satisfies
`combined_score = semantic_weight * semantic_score + keyword_weight * keyword_score`. -/
theorem claim_C7_combination :
    ∀ (simf : Vec → ℚ) (q : String) (sw kw : ℚ) (db : List Candidate)
      (st : Storage) (out : List HybResult) (t : HybResult),
      hybrid_rank simf q sw kw db st = .ok out → t ∈ out →
      t.combinedScore = sw * t.semanticScore + kw * t.keywordScore := by
  intro simf q sw kw db st out t h ht
  obtain ⟨hv, sems, hr, hout⟩ := hybrid_rank_ok_inv h
  subst hout
  have hmem := (mem_sortDesc HybResult.combinedScore _ t).mp ht
  obtain ⟨r, hrm, txt, htxt, rfl⟩ := mem_hybridUnsorted hmem
  rfl

/-- Witness for C7: a concrete run with semantic score `0.8`, keyword score
`0.4` and weights `0.7/0.3` produces combined score `0.68`. -/
theorem claim_C7_combination_witness :
    ∃ out, hybrid_rank (fun _ => 8 / 10) "aaa bbb ccc" (7 / 10) (3 / 10)
        [⟨1, "A", "aaa bbb xxx yyy"⟩] ⟨some [(1, [1])], []⟩ = .ok out ∧
      ∃ t ∈ out,
        t.combinedScore = 7 / 10 * t.semanticScore + 3 / 10 * t.keywordScore ∧
        t.semanticScore = 8 / 10 ∧ t.keywordScore = 2 / 5 ∧
        t.combinedScore = 68 / 100 := by
  have hk : keyword_matching_score "aaa bbb xxx yyy" "aaa bbb ccc" =
      2 / 5 := rfl
  have hr := rank_candidates_ok (fun _ => 8 / 10) [⟨1, "A", "aaa bbb xxx yyy"⟩]
    ⟨some [(1, [1])], []⟩ (by simp [load_embeddings])
  rw [show sortDesc SemResult.score (rankUnsorted (fun _ => 8 / 10)
      [⟨1, "A", "aaa bbb xxx yyy"⟩]
      (load_embeddings ⟨some [(1, [1])], []⟩)) =
    [⟨1, "A", 8 / 10⟩] from rfl] at hr
  have hv : ¬ (1 : ℚ) / 100 < |7 / 10 + 3 / 10 - 1| := by
    rw [show (7 : ℚ) / 10 + 3 / 10 - 1 = 0 by norm_num]
    norm_num
  have hh := hybrid_rank_valid_ok (fun _ => 8 / 10) "aaa bbb ccc" (7 / 10)
    (3 / 10) [⟨1, "A", "aaa bbb xxx yyy"⟩] ⟨some [(1, [1])], []⟩
    [⟨1, "A", 8 / 10⟩] hv hr
  refine ⟨_, hh, ⟨1, "A", 8 / 10,
    keyword_matching_score "aaa bbb xxx yyy" "aaa bbb ccc",
    7 / 10 * (8 / 10) + 3 / 10 *
      keyword_matching_score "aaa bbb xxx yyy" "aaa bbb ccc"⟩, ?_, ?_, rfl, hk, ?_⟩
  · exact List.mem_singleton.mpr rfl
  · exact claim_C7_combination (fun _ => 8 / 10) "aaa bbb ccc" (7 / 10) (3 / 10)
      [⟨1, "A", "aaa bbb xxx yyy"⟩] ⟨some [(1, [1])], []⟩ _ _ hh
      (List.mem_singleton.mpr rfl)
  · show 7 / 10 * (8 / 10) + 3 / 10 *
      keyword_matching_score "aaa bbb xxx yyy" "aaa bbb ccc" = 68 / 100
    rw [hk]
    norm_num

/-- Helper inputs for the C6 tie-order counterexample: two stored vectors
iterated in the order `1, 2`, semantic scores `0` and `3/10`, and texts
whose keyword scores (`7/10` and `0`) make the combined scores tie at
`21/100`. -/
def simfC6 : Vec → ℚ := fun v => if v = [1] then 0 else 3 / 10

/-- Candidate store for the C6 counterexample. -/
def dbC6 : List Candidate :=
  [⟨1, "A", "qaa qbb qcc qdd qee qff qgg xaa xbb xcc"⟩, ⟨2, "B", "zaa zbb zcc"⟩]

/-- Embedding storage for the C6 counterexample. -/
def stC6 : Storage := ⟨some [(1, [1]), (2, [2])], []⟩

/-- Query for the C6 counterexample. -/
def qC6 : String := "qaa qbb qcc qdd qee qff qgg"

/-- Claim C6 counterexample: the embedding collection iterates candidate 1
before candidate 2, the two candidates receive exactly equal combined
scores (`21/100`), yet `hybrid_rank` returns candidate 2 first — the
hybrid tie order follows the semantic ranking (score `3/10` before `0`),
not the iteration order of the embedding collection as claimed. -/
theorem claim_C6_tie_order_counterexample :
    hybrid_rank simfC6 qC6 (7 / 10) (3 / 10) dbC6 stC6 =
      .ok [⟨2, "B", 3 / 10, 0, 21 / 100⟩, ⟨1, "A", 0, 7 / 10, 21 / 100⟩] ∧
    (load_embeddings stC6).map Prod.fst = [1, 2] := by
  have hk1 : keyword_matching_score "qaa qbb qcc qdd qee qff qgg xaa xbb xcc"
      qC6 = 7 / 10 := rfl
  have hk2 : keyword_matching_score "zaa zbb zcc" qC6 = 0 := by
    rw [show keyword_matching_score "zaa zbb zcc" qC6 =
      ((0 : ℕ) : ℚ) / ((10 : ℕ) : ℚ) from rfl]
    norm_num
  have hsort : sortDesc SemResult.score [⟨1, "A", 0⟩, ⟨2, "B", 3 / 10⟩] =
      [⟨2, "B", 3 / 10⟩, ⟨1, "A", 0⟩] := by
    norm_num [sortDesc, insertDesc]
  have hr : rank_candidates simfC6 dbC6 stC6 =
      .ok [⟨2, "B", 3 / 10⟩, ⟨1, "A", 0⟩] := by
    rw [rank_candidates_ok simfC6 dbC6 stC6 (by simp [load_embeddings, stC6]),
      show rankUnsorted simfC6 dbC6 (load_embeddings stC6) =
        [⟨1, "A", 0⟩, ⟨2, "B", 3 / 10⟩] from rfl, hsort]
  have hv : ¬ (1 : ℚ) / 100 < |7 / 10 + 3 / 10 - 1| := by
    rw [show (7 : ℚ) / 10 + 3 / 10 - 1 = 0 by norm_num]
    norm_num
  have hu : hybridUnsorted qC6 (7 / 10) (3 / 10) dbC6
      [⟨2, "B", 3 / 10⟩, ⟨1, "A", 0⟩] =
      [⟨2, "B", 3 / 10, 0, 21 / 100⟩, ⟨1, "A", 0, 7 / 10, 21 / 100⟩] := by
    rw [show hybridUnsorted qC6 (7 / 10) (3 / 10) dbC6
        [⟨2, "B", 3 / 10⟩, ⟨1, "A", 0⟩] =
      [⟨2, "B", 3 / 10, keyword_matching_score "zaa zbb zcc" qC6,
        7 / 10 * (3 / 10) +
          3 / 10 * keyword_matching_score "zaa zbb zcc" qC6⟩,
       ⟨1, "A", 0,
        keyword_matching_score "qaa qbb qcc qdd qee qff qgg xaa xbb xcc" qC6,
        7 / 10 * 0 + 3 / 10 *
          keyword_matching_score "qaa qbb qcc qdd qee qff qgg xaa xbb xcc" qC6⟩]
      from rfl, hk1, hk2]
    norm_num
  have hfinal : sortDesc HybResult.combinedScore
      [⟨2, "B", 3 / 10, 0, 21 / 100⟩, ⟨1, "A", 0, 7 / 10, 21 / 100⟩] =
      [⟨2, "B", 3 / 10, 0, 21 / 100⟩, ⟨1, "A", 0, 7 / 10, 21 / 100⟩] := by
    norm_num [sortDesc, insertDesc]
  refine ⟨?_, rfl⟩
  rw [hybrid_rank_valid_ok simfC6 qC6 (7 / 10) (3 / 10) dbC6 stC6
    [⟨2, "B", 3 / 10⟩, ⟨1, "A", 0⟩] hv hr, hu, hfinal]

/-- Claim C6 amended: both rankings are sorted by their respective keys in
non-increasing order and both sorts are stable.  For `rank_candidates`,
candidates with equal semantic scores keep the iteration order of the
embedding collection (the order of `rankUnsorted`); for `hybrid_rank`,
candidates with equal combined scores keep the order of the semantic
ranking it consumes — which coincides with the embedding iteration order
only when the tied candidates also tie on semantic score (see the
counterexample). -/
theorem claim_C6_amended_sort_stability :
    (∀ (simf : Vec → ℚ) (db : List Candidate) (st : Storage)
        (out : List SemResult),
      rank_candidates simf db st = .ok out →
        SortedDesc SemResult.score out ∧
        ∀ c : ℚ, out.filter (fun r => decide (r.score = c)) =
          (rankUnsorted simf db (load_embeddings st)).filter
            (fun r => decide (r.score = c))) ∧
    (∀ (simf : Vec → ℚ) (q : String) (sw kw : ℚ) (db : List Candidate)
        (st : Storage) (sems : List SemResult) (hout : List HybResult),
      rank_candidates simf db st = .ok sems →
      hybrid_rank simf q sw kw db st = .ok hout →
        SortedDesc HybResult.combinedScore hout ∧
        ∀ c : ℚ, hout.filter (fun t => decide (t.combinedScore = c)) =
          (hybridUnsorted q sw kw db sems).filter
            (fun t => decide (t.combinedScore = c))) := by
  constructor
  · intro simf db st out h
    obtain ⟨hne, hout⟩ := rank_candidates_ok_inv h
    subst hout
    exact ⟨sortDesc_sorted SemResult.score _,
      fun c => sortDesc_filter_key SemResult.score _ c⟩
  · intro simf q sw kw db st sems hout hr hh
    obtain ⟨hv, sems', hr', hout'⟩ := hybrid_rank_ok_inv hh
    have hsems : sems' = sems := Except.ok.inj (hr'.symm.trans hr)
    subst hsems
    subst hout'
    exact ⟨sortDesc_sorted HybResult.combinedScore _,
      fun c => sortDesc_filter_key HybResult.combinedScore _ c⟩

/-- Witness for the amended C6 on a concrete one-candidate run: both
conclusions instantiated, with the stability equations evaluated at the
keys occurring in the outputs. -/
theorem claim_C6_amended_sort_stability_witness :
    (SortedDesc SemResult.score [⟨1, "A", 8 / 10⟩] ∧
      [(⟨1, "A", 8 / 10⟩ : SemResult)].filter
          (fun r => decide (r.score = 8 / 10)) =
        (rankUnsorted (fun _ => 8 / 10) [⟨1, "A", "aaa bbb xxx yyy"⟩]
          (load_embeddings ⟨some [(1, [1])], []⟩)).filter
          (fun r => decide (r.score = 8 / 10))) ∧
    (SortedDesc HybResult.combinedScore
        (sortDesc HybResult.combinedScore
          (hybridUnsorted "aaa bbb ccc" (7 / 10) (3 / 10)
            [⟨1, "A", "aaa bbb xxx yyy"⟩] [⟨1, "A", 8 / 10⟩])) ∧
      (sortDesc HybResult.combinedScore
          (hybridUnsorted "aaa bbb ccc" (7 / 10) (3 / 10)
            [⟨1, "A", "aaa bbb xxx yyy"⟩] [⟨1, "A", 8 / 10⟩])).filter
          (fun t => decide (t.combinedScore = 0)) =
        (hybridUnsorted "aaa bbb ccc" (7 / 10) (3 / 10)
            [⟨1, "A", "aaa bbb xxx yyy"⟩] [⟨1, "A", 8 / 10⟩]).filter
          (fun t => decide (t.combinedScore = 0))) := by
  have hr := rank_candidates_ok (fun _ => 8 / 10) [⟨1, "A", "aaa bbb xxx yyy"⟩]
    ⟨some [(1, [1])], []⟩ (by simp [load_embeddings])
  rw [show sortDesc SemResult.score (rankUnsorted (fun _ => 8 / 10)
      [⟨1, "A", "aaa bbb xxx yyy"⟩]
      (load_embeddings ⟨some [(1, [1])], []⟩)) =
    [⟨1, "A", 8 / 10⟩] from rfl] at hr
  have hv : ¬ (1 : ℚ) / 100 < |7 / 10 + 3 / 10 - 1| := by
    rw [show (7 : ℚ) / 10 + 3 / 10 - 1 = 0 by norm_num]
    norm_num
  have hh := hybrid_rank_valid_ok (fun _ => 8 / 10) "aaa bbb ccc" (7 / 10)
    (3 / 10) [⟨1, "A", "aaa bbb xxx yyy"⟩] ⟨some [(1, [1])], []⟩
    [⟨1, "A", 8 / 10⟩] hv hr
  have h1 := (claim_C6_amended_sort_stability.1 (fun _ => 8 / 10)
    [⟨1, "A", "aaa bbb xxx yyy"⟩] ⟨some [(1, [1])], []⟩ [⟨1, "A", 8 / 10⟩] hr)
  have h2 := (claim_C6_amended_sort_stability.2 (fun _ => 8 / 10) "aaa bbb ccc"
    (7 / 10) (3 / 10) [⟨1, "A", "aaa bbb xxx yyy"⟩] ⟨some [(1, [1])], []⟩
    [⟨1, "A", 8 / 10⟩] _ hr hh)
  exact ⟨⟨h1.1, h1.2 (8 / 10)⟩, ⟨h2.1, h2.2 0⟩⟩

/-- Claim C8 counterexample: `compute_similarity` is a raw cosine
similarity and can be negative — on the one-dimensional embeddings `[1]`
and `[-1]` it evaluates to `-1`, outside the claimed `[0, 1]` range (the
docstring's "score between 0 and 1" is not what the code computes; spec
§4.2 itself documents `[-1, 1]`). -/
theorem claim_C8_similarity_counterexample :
    compute_similarity [1] [-1] = -1 ∧ compute_similarity [1] [-1] < 0 := by
  have h : compute_similarity [1] [-1] = -1 := by
    unfold compute_similarity
    rw [show dotQ [1] [-1] = -1 from by norm_num [dotQ],
      show sumSq [(1 : ℚ)] = 1 from by norm_num [sumSq, dotQ],
      show sumSq [(-1 : ℚ)] = 1 from by norm_num [sumSq, dotQ]]
    push_cast
    rw [Real.sqrt_one]
    norm_num
  exact ⟨h, by rw [h]; norm_num⟩

/-- Claim C8 amended: `compute_similarity` (cosine similarity) is bounded
in `[-1, 1]` — not `[0, 1]` — the keyword score is bounded in `[0, 1]`,
and consequently every tuple of a successful `hybrid_rank` run whose
semantic scores come from a `[-1, 1]`-bounded similarity has its semantic
score in `[-1, 1]`, its keyword score in `[0, 1]` and its combined score
in `[-1, 1]` whenever the weights are non-negative and sum to `1`. -/
theorem claim_C8_amended_score_bounds :
    (∀ u v : Vec,
      -1 ≤ compute_similarity u v ∧ compute_similarity u v ≤ 1) ∧
    (∀ A B : String,
      0 ≤ keyword_matching_score A B ∧ keyword_matching_score A B ≤ 1) ∧
    (∀ (simf : Vec → ℚ) (q : String) (sw kw : ℚ) (db : List Candidate)
        (st : Storage) (out : List HybResult) (t : HybResult),
      (∀ v, -1 ≤ simf v ∧ simf v ≤ 1) →
      0 ≤ sw → 0 ≤ kw → sw + kw = 1 →
      hybrid_rank simf q sw kw db st = .ok out → t ∈ out →
      -1 ≤ t.semanticScore ∧ t.semanticScore ≤ 1 ∧
      0 ≤ t.keywordScore ∧ t.keywordScore ≤ 1 ∧
      -1 ≤ t.combinedScore ∧ t.combinedScore ≤ 1) := by
  refine ⟨compute_similarity_bounds,
    fun A B => ⟨keyword_matching_score_nonneg A B,
      keyword_matching_score_le_one A B⟩, ?_⟩
  intro simf q sw kw db st out t hsim hsw hkw hsum h ht
  obtain ⟨hv, sems, hr, hout⟩ := hybrid_rank_ok_inv h
  subst hout
  have hmem := (mem_sortDesc HybResult.combinedScore _ t).mp ht
  obtain ⟨r, hrm, txt, htxt, rfl⟩ := mem_hybridUnsorted hmem
  obtain ⟨hne, hsems⟩ := rank_candidates_ok_inv hr
  subst hsems
  have hrmem := (mem_sortDesc SemResult.score _ r).mp hrm
  obtain ⟨p, hp, n, hn, rfl⟩ := mem_rankUnsorted hrmem
  have hs := hsim p.2
  have hk0 := keyword_matching_score_nonneg txt q
  have hk1 := keyword_matching_score_le_one txt q
  dsimp only
  refine ⟨hs.1, hs.2, hk0, hk1, ?_, ?_⟩
  · nlinarith [mul_le_mul_of_nonneg_left hs.1 hsw,
      mul_nonneg hkw hk0]
  · nlinarith [mul_le_mul_of_nonneg_left hs.2 hsw,
      mul_le_mul_of_nonneg_left hk1 hkw]

/-- Witness for the amended C8: the cosine bound at the vectors `[1]` and
`[2]`, the keyword bound at two concrete texts, and the tuple bounds on a
concrete one-candidate hybrid run with semantic score `8/10`. -/
theorem claim_C8_amended_score_bounds_witness :
    (-1 ≤ compute_similarity [1] [2] ∧ compute_similarity [1] [2] ≤ 1) ∧
    (0 ≤ keyword_matching_score "aaa bbb" "bbb ccc" ∧
      keyword_matching_score "aaa bbb" "bbb ccc" ≤ 1) ∧
    (-1 ≤ (⟨1, "A", 8 / 10,
        keyword_matching_score "aaa bbb xxx yyy" "aaa bbb ccc",
        7 / 10 * (8 / 10) + 3 / 10 *
          keyword_matching_score "aaa bbb xxx yyy" "aaa bbb ccc"⟩ :
            HybResult).semanticScore ∧
      (⟨1, "A", 8 / 10,
        keyword_matching_score "aaa bbb xxx yyy" "aaa bbb ccc",
        7 / 10 * (8 / 10) + 3 / 10 *
          keyword_matching_score "aaa bbb xxx yyy" "aaa bbb ccc"⟩ :
            HybResult).semanticScore ≤ 1 ∧
      0 ≤ (⟨1, "A", 8 / 10,
        keyword_matching_score "aaa bbb xxx yyy" "aaa bbb ccc",
        7 / 10 * (8 / 10) + 3 / 10 *
          keyword_matching_score "aaa bbb xxx yyy" "aaa bbb ccc"⟩ :
            HybResult).keywordScore ∧
      (⟨1, "A", 8 / 10,
        keyword_matching_score "aaa bbb xxx yyy" "aaa bbb ccc",
        7 / 10 * (8 / 10) + 3 / 10 *
          keyword_matching_score "aaa bbb xxx yyy" "aaa bbb ccc"⟩ :
            HybResult).keywordScore ≤ 1 ∧
      -1 ≤ (⟨1, "A", 8 / 10,
        keyword_matching_score "aaa bbb xxx yyy" "aaa bbb ccc",
        7 / 10 * (8 / 10) + 3 / 10 *
          keyword_matching_score "aaa bbb xxx yyy" "aaa bbb ccc"⟩ :
            HybResult).combinedScore ∧
      (⟨1, "A", 8 / 10,
        keyword_matching_score "aaa bbb xxx yyy" "aaa bbb ccc",
        7 / 10 * (8 / 10) + 3 / 10 *
          keyword_matching_score "aaa bbb xxx yyy" "aaa bbb ccc"⟩ :
            HybResult).combinedScore ≤ 1) := by
  have hr := rank_candidates_ok (fun _ => 8 / 10) [⟨1, "A", "aaa bbb xxx yyy"⟩]
    ⟨some [(1, [1])], []⟩ (by simp [load_embeddings])
  rw [show sortDesc SemResult.score (rankUnsorted (fun _ => 8 / 10)
      [⟨1, "A", "aaa bbb xxx yyy"⟩]
      (load_embeddings ⟨some [(1, [1])], []⟩)) =
    [⟨1, "A", 8 / 10⟩] from rfl] at hr
  have hv : ¬ (1 : ℚ) / 100 < |7 / 10 + 3 / 10 - 1| := by
    rw [show (7 : ℚ) / 10 + 3 / 10 - 1 = 0 by norm_num]
    norm_num
  have hh := hybrid_rank_valid_ok (fun _ => 8 / 10) "aaa bbb ccc" (7 / 10)
    (3 / 10) [⟨1, "A", "aaa bbb xxx yyy"⟩] ⟨some [(1, [1])], []⟩
    [⟨1, "A", 8 / 10⟩] hv hr
  refine ⟨claim_C8_amended_score_bounds.1 [1] [2],
    claim_C8_amended_score_bounds.2.1 "aaa bbb" "bbb ccc",
    claim_C8_amended_score_bounds.2.2 (fun _ => 8 / 10) "aaa bbb ccc"
      (7 / 10) (3 / 10) [⟨1, "A", "aaa bbb xxx yyy"⟩] ⟨some [(1, [1])], []⟩
      _ _ (fun _ => by norm_num) (by norm_num) (by norm_num) (by norm_num)
      hh (List.mem_singleton.mpr rfl)⟩

end CVMatch
